import Mathlib

/-
Verification of the parsing-and-reconciliation core of the ASEG-to-CSV
converter (source: src/src/App.tsx).  The TypeScript functions are embedded
shallowly: JavaScript strings are modelled as Lean Strings (with the raw
character list exposed as List Char where the source manipulates indices),
JavaScript numbers as Rat (an idealisation of IEEE doubles: no claim below
depends on rounding), JavaScript objects used as string-keyed maps as
insertion-ordered association lists with in-place overwrite, and the builtin
Number() conversion as an executable parser of the ECMAScript string numeric
grammar (decimal with optional sign, fraction and exponent; 0x/0o/0b radix
literals; Infinity and NaN collapse to none since the source only keeps
finite results).
-/

namespace Aseg

abbrev Chars := List Char

/-- Whitespace recognised by the JavaScript trim and the regex class used in
App.tsx (the common ASCII subset; exotic Unicode spaces are out of model). -/
def isWsChar (c : Char) : Bool :=
  c = ' ' || c = '\t' || c = '\n' || c = '\r' || c = '\x0b' || c = '\x0c'

/-- Model of String.prototype.trim. -/
def trimChars (cs : Chars) : Chars :=
  ((cs.dropWhile isWsChar).reverse.dropWhile isWsChar).reverse

def jsTrim (s : String) : String := String.mk (trimChars s.data)

/-- Model of str.split(sep) for a single-character separator: keeps empty
fields, yields one field even on empty input. -/
def splitChar (sep : Char) : Chars → List Chars
  | [] => [[]]
  | c :: rest =>
    match splitChar sep rest with
    | [] => [[]]
    | f :: fs => if c = sep then [] :: f :: fs else (c :: f) :: fs

theorem length_dropWhile_le_self {α : Type} (p : α → Bool) (l : List α) :
    (l.dropWhile p).length ≤ l.length := by
  induction l with
  | nil => simp [List.dropWhile]
  | cons a l ih =>
    by_cases h : p a
    · simp only [List.dropWhile, h, List.length_cons]
      omega
    · simp [List.dropWhile, h]

/-- Model of str.split on the whitespace regex of App.tsx line 31: the
alternation of a two-or-more whitespace run and a one-or-more whitespace run
consumes, greedily, every maximal whitespace run, so splitting happens at
each such run.  Structural recursion on a fuel argument (the input length
always suffices, since each step consumes at least one character) so that
the definition reduces inside the kernel. -/
def wsSplitFuel : Nat → Chars → List Chars
  | 0, cs => [cs]
  | _ + 1, [] => [[]]
  | fuel + 1, c :: rest =>
    if isWsChar c then [] :: wsSplitFuel fuel (rest.dropWhile isWsChar)
    else
      match wsSplitFuel fuel rest with
      | [] => [[c]]
      | f :: fs => (c :: f) :: fs

def wsSplitGo (cs : Chars) : List Chars := wsSplitFuel cs.length cs

/-- App.tsx lines 25-32 (splitByAny): tab split if it yields more than one
field, else comma split if it yields more than one field, else whitespace-run
split of the trimmed line. -/
def splitByAny (cs : Chars) : List Chars :=
  let tab := splitChar '\t' cs
  if tab.length > 1 then tab
  else
    let csv := splitChar ',' cs
    if csv.length > 1 then csv
    else wsSplitGo (trimChars cs)

/-- A cell value: a finite JavaScript number or a string
(App.tsx type SubjectMetrics = Record of number-or-string). -/
inductive Value where
  | num (q : Rat)
  | str (s : String)
deriving DecidableEq

/- ---------- model of the ECMAScript Number() conversion ---------- -/

def digitVal? (base : Nat) (c : Char) : Option Nat :=
  let v : Option Nat :=
    if c.isDigit then some (c.toNat - 48)
    else if 'a' ≤ c && c ≤ 'f' then some (c.toNat - 87)
    else if 'A' ≤ c && c ≤ 'F' then some (c.toNat - 55)
    else none
  match v with
  | some n => if n < base then some n else none
  | none => none

def natOfBase (base : Nat) (cs : Chars) : Nat :=
  cs.foldl (fun a c => a * base + ((digitVal? base c).getD 0)) 0

def radixVal? (base : Nat) (cs : Chars) : Option Rat :=
  if cs ≠ [] && cs.all (fun c => (digitVal? base c).isSome) then
    some (mkRat (natOfBase base cs : Int) 1)
  else none

def allDec (cs : Chars) : Bool := cs.all Char.isDigit

/-- Unsigned decimal mantissa: digits, optionally containing one decimal
point, with at least one digit overall.  Returns the digits read as an
integer together with the number of fractional digits. -/
def decMantissa? (cs : Chars) : Option (Nat × Nat) :=
  match splitChar '.' cs with
  | [i] => if i ≠ [] && allDec i then some (natOfBase 10 i, 0) else none
  | [i, f] =>
    if (i ≠ [] || f ≠ []) && allDec i && allDec f then
      some (natOfBase 10 (i ++ f), f.length)
    else none
  | _ => none

def expVal? (cs : Chars) : Option Int :=
  match cs with
  | '+' :: rest => if rest ≠ [] && allDec rest then some ((natOfBase 10 rest : Nat) : Int) else none
  | '-' :: rest => if rest ≠ [] && allDec rest then some (-((natOfBase 10 rest : Nat) : Int)) else none
  | _ => if cs ≠ [] && allDec cs then some ((natOfBase 10 cs : Nat) : Int) else none

/-- The rational v times ten to the e minus fd, written with mkRat so that
the kernel can evaluate it (the field operations of Rat do not reduce there). -/
def scaledRat (v : Nat) (fd : Nat) (e : Int) : Rat :=
  let t : Int := e - (fd : Int)
  if 0 ≤ t then mkRat ((v : Int) * (10 : Int) ^ t.toNat) 1
  else mkRat (v : Int) ((10 : Nat) ^ (-t).toNat)

def jsDecimal? (cs : Chars) : Option Rat :=
  let m := cs.takeWhile (fun c => !(c = 'e' || c = 'E'))
  let r := cs.dropWhile (fun c => !(c = 'e' || c = 'E'))
  match decMantissa? m with
  | none => none
  | some (v, fd) =>
    match r with
    | [] => some (scaledRat v fd 0)
    | _ :: expPart =>
      match expVal? expPart with
      | none => none
      | some e => some (scaledRat v fd e)

/-- Number(s) restricted to finite results: none stands for NaN or an
infinity (the source only ever asks Number.isFinite of the result). -/
def jsNumber (s : String) : Option Rat :=
  match s.data with
  | '0' :: 'x' :: rest => radixVal? 16 rest
  | '0' :: 'X' :: rest => radixVal? 16 rest
  | '0' :: 'o' :: rest => radixVal? 8 rest
  | '0' :: 'O' :: rest => radixVal? 8 rest
  | '0' :: 'b' :: rest => radixVal? 2 rest
  | '0' :: 'B' :: rest => radixVal? 2 rest
  | '+' :: rest => if rest = "Infinity".data then none else jsDecimal? rest
  | '-' :: rest => if rest = "Infinity".data then none else (jsDecimal? rest).map Neg.neg
  | cs => if cs = "Infinity".data then none else jsDecimal? cs

/-- App.tsx lines 34-39 (coerceNumber): trim, keep an empty string, else keep
the number when the whole string converts to a finite number, else keep the
trimmed string. -/
def coerceNumber (v : String) : Value :=
  let s := jsTrim v
  if s = "" then .str ""
  else
    match jsNumber s with
    | some q => .num q
    | none => .str s

/- ---------- association lists: JS objects as string-keyed maps ---------- -/

def lookupKV {β : Type} (m : List (String × β)) (k : String) : Option β :=
  match m with
  | [] => none
  | (k', v) :: rest => if k' = k then some v else lookupKV rest k

/-- Assignment m[k] = v on a JS object: overwrite in place when the key
exists, append otherwise (string keys keep insertion order; integer-like
keys, which JS would reorder, do not occur in any claim). -/
def setKV {β : Type} (m : List (String × β)) (k : String) (v : β) : List (String × β) :=
  match m with
  | [] => [(k, v)]
  | (k', v') :: rest => if k' = k then (k, v) :: rest else (k', v') :: setKV rest k v

def keysOf {β : Type} (m : List (String × β)) : List String := m.map Prod.fst

/- ---------- the per-subject text parser ---------- -/

structure ParsedSubject where
  metrics : List (String × Value)
  order : List String
deriving DecidableEq

def isWordChar (c : Char) : Bool := c.isAlphanum || c = '_'

/-- The regex test on App.tsx line 49: case-insensitive literal
Measure:volume at the start of the line followed by a word boundary. -/
def isMeasureHeader (cs : Chars) : Bool :=
  decide ((cs.take 14).map Char.toLower = "measure:volume".data)
  && (match cs.drop 14 with
      | [] => true
      | c :: _ => !isWordChar c)

/-- The key/value pair one trimmed, non-blank line contributes, or none.
Mirrors the loop body of App.tsx lines 46-68: skip the Measure:volume
header; if the first colon sits at index greater than zero, split there and
trim both sides; otherwise split by splitByAny and, given at least two
fields, take the last field as the value and the space-join of the rest as
the key; an empty key contributes nothing in either branch. -/
def delimKV (cs : Chars) : Option (String × Value) :=
  let parts := splitByAny cs
  if parts.length ≥ 2 then
    match parts.getLast? with
    | some val =>
      let key := List.intercalate [' '] parts.dropLast
      if key ≠ [] then some (String.mk key, coerceNumber (String.mk val)) else none
    | none => none
  else none

def lineKV (cs : Chars) : Option (String × Value) :=
  if isMeasureHeader cs then none
  else
    match cs.findIdx? (fun c => c = ':') with
    | some c =>
      if 0 < c then
        let k := trimChars (cs.take c)
        let v := trimChars (cs.drop (c + 1))
        if k ≠ [] then some (String.mk k, coerceNumber (String.mk v)) else none
      else delimKV cs
    | none => delimKV cs

/-- App.tsx lines 56-57 and 66-67: push the key onto the discovery order if
the map does not yet have it, then overwrite the mapping. -/
def recordKV (st : ParsedSubject) (k : String) (v : Value) : ParsedSubject :=
  { metrics := setKV st.metrics k v,
    order := if (lookupKV st.metrics k).isSome then st.order else st.order ++ [k] }

def stepLine (st : ParsedSubject) (cs : Chars) : ParsedSubject :=
  match lineKV cs with
  | none => st
  | some (k, v) => recordKV st k v

/-- Drop one carriage return at the end of a segment (the \r? of the
line-splitting regex on App.tsx line 42). -/
def dropCR (cs : Chars) : Chars :=
  match cs.getLast? with
  | some c => if c = '\r' then cs.dropLast else cs
  | none => cs

/-- text.split of the \r-optional newline regex: split at every newline and
strip a carriage return from every segment that was followed by a newline
(that is, every segment but the last). -/
def mapInitDropCR : List Chars → List Chars
  | [] => []
  | [last] => [last]
  | seg :: rest => dropCR seg :: mapInitDropCR rest

def linesOf (text : String) : List Chars :=
  ((mapInitDropCR (splitChar '\n' text.data)).map trimChars).filter (fun l => l ≠ [])

/-- App.tsx lines 41-72 (parseSubjectTxt). -/
def parseSubjectTxt (text : String) : ParsedSubject :=
  (linesOf text).foldl stepLine ⟨[], []⟩

/- ---------- files, the roster, and the matrix builder ---------- -/

structure FileRec where
  name : String
  content : String
deriving DecidableEq

/-- Papa.parse with header: the ordered field names plus one association
list (column name to raw cell) per data row. -/
structure ParsedTable where
  fields : List String
  data : List (List (String × String))
deriving DecidableEq

/-- App.tsx lines 17-19 (normalize); the argument is an optional string
because a missing object property reads as undefined, which String(s or '')
renders as the empty string. -/
def normalize (v : Option String) : String := jsTrim (v.getD "")

/-- App.tsx lines 21-23 (stripExt): remove one trailing dot-extension, where
the extension is a nonempty final dot-free segment. -/
def stripExt (s : String) : String :=
  let parts := splitChar '.' s.data
  match parts.getLast? with
  | some last =>
    if parts.length ≥ 2 && last ≠ [] then
      String.mk (List.intercalate ['.'] parts.dropLast)
    else s
  | none => s

/-- App.tsx lines 97-103 (handleSubjectsInput): index every uploaded file
under both its normalized full name and its extension-stripped base name. -/
def buildSubjectMap (files : List FileRec) : List (String × FileRec) :=
  files.foldl
    (fun m f =>
      let full := jsTrim f.name
      let base := stripExt full
      setKV (setKV m full f) base f)
    []

/-- App.tsx lines 118-130 (resolveFileForId): try the trimmed id, its
extension-stripped base, and the base with .txt appended, in that order;
first hit wins. -/
def resolveFileForId (pool : List (String × FileRec)) (idRaw : String) : Option FileRec :=
  let id := jsTrim idRaw
  let base := stripExt id
  [id, base, base ++ ".txt"].findSome? (lookupKV pool)

/-- Model of str.replace with a global literal-pattern regex: replace every
leftmost non-overlapping occurrence; replacements are not rescanned.
Structural recursion on a fuel argument (the input length always
suffices). -/
def replaceAllFuel (pat rep : Chars) : Nat → Chars → Chars
  | 0, cs => cs
  | _ + 1, [] => []
  | fuel + 1, c :: rest =>
    if pat ≠ [] ∧ pat.isPrefixOf (c :: rest) then
      rep ++ replaceAllFuel pat rep fuel ((c :: rest).drop pat.length)
    else c :: replaceAllFuel pat rep fuel rest

def replaceAll (pat rep cs : Chars) : Chars := replaceAllFuel pat rep cs.length cs

/-- App.tsx lines 132-136 (formatRowLabel). -/
def formatRowLabel (tmpl : String) (idRaw : String) : String :=
  let id := jsTrim idRaw
  let base := stripExt id
  String.mk (replaceAll "{base}".data base.data (replaceAll "{id}".data id.data tmpl.data))

/-- Rendering of a cell by .toString(): strings are kept, numbers printed
(Rat printing stands in for JS number printing; no claim depends on the
digits of a non-integral number). -/
def valueToString : Value → String
  | .num q => toString q
  | .str s => s

structure BuildInput where
  participants : Option ParsedTable
  idColumn : String
  rowLabelTemplate : String
  mergeCovariates : Bool
  files : List FileRec
deriving DecidableEq

structure BuildResult where
  header : List String
  rows : List (List String)
  warnings : List String
deriving DecidableEq

/-- App.tsx line 146: normalized id-cells of the roster rows, blanks
dropped. -/
def subjectsOrderOf (pp : ParsedTable) (idCol : String) : List String :=
  (pp.data.map (fun r => normalize (lookupKV r idCol))).filter (fun s => s ≠ "")

structure CollectState where
  warnings : List String
  parsedById : List (String × ParsedSubject)
  canonicalOrder : Option (List String)
deriving DecidableEq

/-- Loop body of App.tsx lines 157-170: per roster id either record a
missing-file warning, or parse the file, store the record under the id and
seed the canonical order with the first nonempty discovery order. -/
def collectStep (pool : List (String × FileRec)) (st : CollectState) (sid : String) : CollectState :=
  match resolveFileForId pool sid with
  | none => { st with warnings := st.warnings ++ ["Missing file for ID: " ++ sid] }
  | some f =>
    let parsed := parseSubjectTxt f.content
    { warnings := st.warnings,
      parsedById := setKV st.parsedById sid parsed,
      canonicalOrder :=
        match st.canonicalOrder with
        | some c => some c
        | none => if parsed.order ≠ [] then some parsed.order else none }

def collectParsed (pool : List (String × FileRec)) (sids : List String) : CollectState :=
  sids.foldl (collectStep pool) ⟨[], [], none⟩

/-- One step of the seen-set fold of App.tsx lines 173-191; the source keeps
a Set named seen whose elements are exactly the elements of the accumulated
column list, so membership is tested on the list itself. -/
def addUnseen (cols : List String) (ks : List String) : List String :=
  ks.foldl (fun acc k => if acc.contains k then acc else acc ++ [k]) cols

/-- Loop body of App.tsx lines 175-191: per roster id, append the unseen
keys of its discovery order, then the unseen keys of its metrics map. -/
def unifyStep (parsedById : List (String × ParsedSubject)) (cols : List String) (sid : String) : List String :=
  match lookupKV parsedById sid with
  | none => cols
  | some p => addUnseen (addUnseen cols p.order) (keysOf p.metrics)

/-- App.tsx lines 173-191: the canonical metric column list. -/
def unifyColumns (canonicalOrder : Option (List String)) (parsedById : List (String × ParsedSubject)) (sids : List String) : List String :=
  sids.foldl (unifyStep parsedById)
    (match canonicalOrder with
     | some c => c
     | none => [])

/-- App.tsx lines 207-210: the covariate cells of one row. -/
def covCellsFor (inp : BuildInput) (pp : ParsedTable) (covariateCols : List String) (sid : String) : List String :=
  if inp.mergeCovariates then
    let rec0 := (pp.data.find? (fun r => normalize (lookupKV r inp.idColumn) = sid)).getD []
    covariateCols.map (fun c => (lookupKV rec0 c).getD "")
  else []

/-- App.tsx lines 199-212: one output row; the source pushes raw values and
maps toString over the finished row, which renders the label and covariate
strings unchanged and the metric cells through valueToString. -/
def rowFor (inp : BuildInput) (pp : ParsedTable) (parsedById : List (String × ParsedSubject)) (metricCols covariateCols : List String) (sid : String) : List String :=
  let metrics :=
    match lookupKV parsedById sid with
    | some p => p.metrics
    | none => []
  formatRowLabel inp.rowLabelTemplate sid
    :: metricCols.map (fun k => valueToString ((lookupKV metrics k).getD (Value.str "")))
    ++ covCellsFor inp pp covariateCols sid

/-- App.tsx lines 139-216 (buildMatrix); the two alert-and-return paths
yield the empty result with the warning list as reset on line 140. -/
def buildMatrix (inp : BuildInput) : BuildResult :=
  match inp.participants with
  | none => ⟨[], [], []⟩
  | some pp =>
    if inp.idColumn = "" then ⟨[], [], []⟩
    else
      let pool := buildSubjectMap inp.files
      let subjectsOrder := subjectsOrderOf pp inp.idColumn
      if subjectsOrder.isEmpty then ⟨[], [], []⟩
      else
        let st := collectParsed pool subjectsOrder
        let metricCols := unifyColumns st.canonicalOrder st.parsedById subjectsOrder
        let covariateCols := pp.fields.filter (fun c => c ≠ inp.idColumn)
        let header := "subject" :: metricCols ++ (if inp.mergeCovariates then covariateCols else [])
        let rows := subjectsOrder.map (rowFor inp pp st.parsedById metricCols covariateCols)
        ⟨header, rows, st.warnings⟩

/- ---------- derived notions used to state the claims ---------- -/

/-- The record parse of the file a roster id resolves to, when one does. -/
def parseOf (pool : List (String × FileRec)) (sid : String) : Option ParsedSubject :=
  (resolveFileForId pool sid).map (fun f => parseSubjectTxt f.content)

/-- The parsed records of a roster, in roster order, unresolvable ids
skipped. -/
def parsedList (pool : List (String × FileRec)) (sids : List String) : List ParsedSubject :=
  sids.filterMap (parseOf pool)

/-- Specification-side first-occurrence deduplication: keep each element at
its first position, drop the repeats. -/
def dedupFirst : List String → List String
  | [] => []
  | k :: ks => k :: dedupFirst (ks.filter (fun x => x ≠ k))
termination_by l => l.length
decreasing_by
  simp only [List.length_cons]
  have := List.length_filter_le (fun x => x ≠ k) ks
  omega

/-- Specification-side reading of last-occurrence-wins: the value paired
with the last occurrence of the key in a contribution list. -/
def lastValue (k : String) : List (String × Value) → Option Value
  | [] => none
  | kv :: rest =>
    match lastValue k rest with
    | some v => some v
    | none => if kv.1 = k then some kv.2 else none

/-- The key/value contributions of a subject text, line by line. -/
def contribsOf (text : String) : List (String × Value) :=
  (linesOf text).filterMap lineKV

/- ---------- association-list lemmas ---------- -/

theorem lookupKV_setKV_self {β : Type} (m : List (String × β)) (k : String) (v : β) :
    lookupKV (setKV m k v) k = some v := by
  induction m with
  | nil => simp [setKV, lookupKV]
  | cons kv rest ih =>
    by_cases h : kv.1 = k
    · simp [setKV, lookupKV, h]
    · simpa [setKV, lookupKV, h] using ih

theorem lookupKV_setKV_ne {β : Type} (m : List (String × β)) (k k' : String) (v : β)
    (h : k' ≠ k) : lookupKV (setKV m k v) k' = lookupKV m k' := by
  induction m with
  | nil =>
    have h1 : ¬ k = k' := fun hh => h hh.symm
    simp [setKV, lookupKV, h1]
  | cons kv rest ih =>
    obtain ⟨a, b⟩ := kv
    by_cases hk : a = k
    · subst hk
      have h1 : ¬ a = k' := fun hh => h hh.symm
      simp [setKV, lookupKV, h1]
    · by_cases hk' : a = k' <;> simp [setKV, lookupKV, hk, hk', ih, h]

theorem mem_keysOf_iff {β : Type} (m : List (String × β)) (k : String) :
    k ∈ keysOf m ↔ (lookupKV m k).isSome := by
  induction m with
  | nil => simp [keysOf, lookupKV]
  | cons kv rest ih =>
    by_cases h : kv.1 = k
    · simp [keysOf, lookupKV, h]
    · simp only [keysOf, List.map_cons, List.mem_cons, lookupKV, h, if_false]
      constructor
      · rintro (rfl | hm)
        · exact absurd rfl h
        · exact (ih.mp hm)
      · intro hs
        exact Or.inr (ih.mpr hs)

/- ---------- addUnseen and dedupFirst lemmas ---------- -/

theorem addUnseen_nil (cols : List String) : addUnseen cols [] = cols := rfl

theorem addUnseen_cons (cols : List String) (k : String) (ks : List String) :
    addUnseen cols (k :: ks) =
      addUnseen (if cols.contains k then cols else cols ++ [k]) ks := rfl

theorem addUnseen_append (cols : List String) (ks₁ ks₂ : List String) :
    addUnseen cols (ks₁ ++ ks₂) = addUnseen (addUnseen cols ks₁) ks₂ :=
  List.foldl_append ..

theorem mem_addUnseen (cols ks : List String) (x : String) :
    x ∈ addUnseen cols ks ↔ x ∈ cols ∨ x ∈ ks := by
  induction ks generalizing cols with
  | nil => simp [addUnseen_nil]
  | cons k ks ih =>
    rw [addUnseen_cons]
    by_cases h : cols.contains k
    · rw [if_pos h]
      rw [List.elem_iff] at h
      constructor
      · intro hx
        rcases (ih cols).mp hx with hc | hk
        · exact Or.inl hc
        · exact Or.inr (List.mem_cons_of_mem _ hk)
      · intro hx
        rcases hx with hc | hk
        · exact (ih cols).mpr (Or.inl hc)
        · rcases List.mem_cons.mp hk with rfl | hk'
          · exact (ih cols).mpr (Or.inl h)
          · exact (ih cols).mpr (Or.inr hk')
    · rw [if_neg h]
      rw [ih]
      simp only [List.mem_append, List.mem_singleton, List.mem_cons]
      tauto

theorem addUnseen_nodup (cols ks : List String) (h : cols.Nodup) :
    (addUnseen cols ks).Nodup := by
  induction ks generalizing cols with
  | nil => exact h
  | cons k ks ih =>
    rw [addUnseen_cons]
    by_cases hc : cols.contains k
    · rw [if_pos hc]; exact ih cols h
    · rw [if_neg hc]
      refine ih _ ?_
      refine List.Nodup.append h (List.nodup_singleton k) ?_
      intro a ha hb
      rw [List.mem_singleton] at hb
      subst hb
      exact hc (List.elem_iff.mpr ha)

theorem addUnseen_eq_self (cols ks : List String) (h : ∀ k ∈ ks, k ∈ cols) :
    addUnseen cols ks = cols := by
  induction ks generalizing cols with
  | nil => rfl
  | cons k ks ih =>
    rw [addUnseen_cons, if_pos (List.elem_iff.mpr (h k (List.mem_cons_self _ _)))]
    exact ih cols (fun x hx => h x (List.mem_cons_of_mem _ hx))

theorem addUnseen_eq_append (cols ks : List String) :
    ∃ r, addUnseen cols ks = cols ++ r := by
  induction ks generalizing cols with
  | nil => exact ⟨[], by simp [addUnseen_nil]⟩
  | cons k ks ih =>
    rw [addUnseen_cons]
    by_cases hc : cols.contains k
    · rw [if_pos hc]; exact ih cols
    · rw [if_neg hc]
      rcases ih (cols ++ [k]) with ⟨r, hr⟩
      exact ⟨k :: r, by simpa using hr⟩

theorem mem_dedupFirst (l : List String) (x : String) : x ∈ dedupFirst l ↔ x ∈ l := by
  induction l using dedupFirst.induct with
  | case1 => simp [dedupFirst]
  | case2 k ks ih =>
    rw [dedupFirst]
    by_cases hx : x = k
    · subst hx; simp
    · simp only [List.mem_cons, hx, false_or, ih, List.mem_filter]
      constructor
      · intro h; exact h.1
      · intro h; exact ⟨h, by simpa using hx⟩

theorem dedupFirst_nodup (l : List String) : (dedupFirst l).Nodup := by
  induction l using dedupFirst.induct with
  | case1 => simp [dedupFirst]
  | case2 k ks ih =>
    rw [dedupFirst]
    refine List.nodup_cons.mpr ⟨?_, ih⟩
    intro hk
    have := (mem_dedupFirst _ _).mp hk
    rw [List.mem_filter] at this
    simpa using this.2

theorem addUnseen_eq_dedupFirst (ks : List String) :
    ∀ cols : List String, addUnseen cols ks = cols ++ dedupFirst (ks.filter (fun x => x ∉ cols)) := by
  induction ks with
  | nil => intro cols; simp [addUnseen_nil, dedupFirst]
  | cons k ks ih =>
    intro cols
    rw [addUnseen_cons]
    by_cases hc : k ∈ cols
    · rw [if_pos (List.elem_iff.mpr hc)]
      rw [ih cols]
      have hf : (k :: ks).filter (fun x => x ∉ cols) = ks.filter (fun x => x ∉ cols) := by
        simp [List.filter_cons, hc]
      rw [hf]
    · rw [if_neg (fun h => hc (List.elem_iff.mp h))]
      rw [ih (cols ++ [k])]
      have h1 : (k :: ks).filter (fun x => x ∉ cols) = k :: ks.filter (fun x => x ∉ cols) := by
        simp [List.filter_cons, hc]
      rw [h1, dedupFirst]
      have h2 : (ks.filter (fun x => x ∉ cols)).filter (fun x => x ≠ k)
          = ks.filter (fun x => x ∉ cols ++ [k]) := by
        rw [List.filter_filter]
        apply List.filter_congr
        intro x _
        by_cases h3 : x = k
        · subst h3; simp
        · by_cases h4 : x ∈ cols <;> simp [h3, h4]
      rw [h2]
      simp

/- ---------- parser invariants and the line-fold characterisation ---------- -/

/-- The SubjectRecord invariant of the spec: the discovery order is
duplicate-free and lists exactly the keys of the mapping. -/
def Inv (st : ParsedSubject) : Prop :=
  st.order.Nodup ∧ ∀ k, k ∈ st.order ↔ (lookupKV st.metrics k).isSome

theorem Inv_init : Inv ⟨[], []⟩ := by
  refine ⟨List.nodup_nil, ?_⟩
  intro k
  simp [lookupKV]

theorem Inv_recordKV (st : ParsedSubject) (k : String) (v : Value) (h : Inv st) :
    Inv (recordKV st k v) := by
  obtain ⟨hnd, hiff⟩ := h
  constructor
  · by_cases hs : (lookupKV st.metrics k).isSome
    · simpa [recordKV, hs] using hnd
    · simp only [recordKV, hs, if_false]
      refine List.Nodup.append hnd (List.nodup_singleton k) ?_
      intro a ha hb
      rw [List.mem_singleton] at hb
      subst hb
      exact hs ((hiff a).mp ha)
  · intro k'
    by_cases hk : k' = k
    · subst hk
      simp only [recordKV, lookupKV_setKV_self, Option.isSome_some, iff_true]
      by_cases hs : (lookupKV st.metrics k').isSome
      · rw [if_pos hs]
        exact (hiff k').mpr hs
      · rw [if_neg hs]
        simp
    · simp only [recordKV, lookupKV_setKV_ne st.metrics k k' v hk]
      by_cases hs : (lookupKV st.metrics k).isSome
      · rw [if_pos hs]
        exact hiff k'
      · rw [if_neg hs, List.mem_append, List.mem_singleton]
        constructor
        · rintro (h1 | h1)
          · exact (hiff k').mp h1
          · exact absurd h1 hk
        · intro h1
          exact Or.inl ((hiff k').mpr h1)

theorem Inv_stepLine (st : ParsedSubject) (line : Chars) (h : Inv st) :
    Inv (stepLine st line) := by
  cases hkv : lineKV line with
  | none => simpa [stepLine, hkv] using h
  | some kv =>
    obtain ⟨k, v⟩ := kv
    simpa [stepLine, hkv] using Inv_recordKV st k v h

theorem Inv_foldl (lines : List Chars) : ∀ st : ParsedSubject, Inv st →
    Inv (lines.foldl stepLine st) := by
  induction lines with
  | nil => intro st h; exact h
  | cons line rest ih => intro st h; exact ih _ (Inv_stepLine st line h)

theorem Inv_parse (text : String) : Inv (parseSubjectTxt text) :=
  Inv_foldl _ _ Inv_init

theorem order_foldl (lines : List Chars) :
    ∀ st : ParsedSubject, Inv st →
      (lines.foldl stepLine st).order = addUnseen st.order ((lines.filterMap lineKV).map Prod.fst) := by
  induction lines with
  | nil => intro st _; rfl
  | cons line rest ih =>
    intro st hst
    simp only [List.foldl_cons]
    cases hkv : lineKV line with
    | none =>
      have h1 : stepLine st line = st := by simp [stepLine, hkv]
      rw [h1, ih st hst]
      simp [List.filterMap_cons, hkv]
    | some kv =>
      obtain ⟨k, v⟩ := kv
      have h1 : stepLine st line = recordKV st k v := by simp [stepLine, hkv]
      rw [h1, ih _ (Inv_recordKV st k v hst)]
      simp only [List.filterMap_cons, hkv, List.map_cons]
      rw [addUnseen_cons]
      congr 1
      simp only [recordKV]
      by_cases hs : (lookupKV st.metrics k).isSome
      · rw [if_pos hs, if_pos (List.elem_iff.mpr ((hst.2 k).mpr hs))]
      · rw [if_neg hs, if_neg (fun hc => hs ((hst.2 k).mp (List.elem_iff.mp hc)))]

theorem metrics_foldl (lines : List Chars) :
    ∀ (st : ParsedSubject) (k : String),
      lookupKV (lines.foldl stepLine st).metrics k =
        (match lastValue k (lines.filterMap lineKV) with
         | some v => some v
         | none => lookupKV st.metrics k) := by
  induction lines with
  | nil => intro st k; rfl
  | cons line rest ih =>
    intro st k
    simp only [List.foldl_cons]
    cases hkv : lineKV line with
    | none =>
      rw [show stepLine st line = st by simp [stepLine, hkv], ih st k]
      simp [List.filterMap_cons, hkv]
    | some kv =>
      obtain ⟨k₀, v₀⟩ := kv
      rw [show stepLine st line = recordKV st k₀ v₀ by simp [stepLine, hkv], ih _ k]
      simp only [List.filterMap_cons, hkv]
      cases hlv : lastValue k (rest.filterMap lineKV) with
      | some v => simp [lastValue, hlv]
      | none =>
        simp only [lastValue, hlv]
        by_cases hk : k₀ = k
        · subst hk
          simp [recordKV, lookupKV_setKV_self]
        · simp [recordKV, lookupKV_setKV_ne _ _ _ _ (fun hh => hk hh.symm), hk]

theorem addUnseen_nil_left (l : List String) : addUnseen [] l = dedupFirst l := by
  have h1 : l.filter (fun x => x ∉ ([] : List String)) = l :=
    List.filter_eq_self.mpr (by intro a _; simp)
  rw [addUnseen_eq_dedupFirst, h1, List.nil_append]

theorem parse_order (text : String) :
    (parseSubjectTxt text).order = dedupFirst ((contribsOf text).map Prod.fst) := by
  have h := order_foldl (linesOf text) ⟨[], []⟩ Inv_init
  rw [parseSubjectTxt, h, contribsOf, addUnseen_nil_left]

theorem parse_metrics (text : String) (k : String) :
    lookupKV (parseSubjectTxt text).metrics k = lastValue k (contribsOf text) := by
  have h := metrics_foldl (linesOf text) ⟨[], []⟩ k
  rw [parseSubjectTxt, h, contribsOf]
  cases hlv : lastValue k ((linesOf text).filterMap lineKV) <;> simp [lookupKV]

/- ---------- characterisation of the collection and unification loops ---------- -/

/-- The per-record step of the column-unification loop, as it acts on one
parsed record. -/
def pstep (acc : List String) (p : ParsedSubject) : List String :=
  addUnseen (addUnseen acc p.order) (keysOf p.metrics)

/-- The canonical metric column list of a build, as computed by the two
loops of buildMatrix. -/
def metricColsFor (files : List FileRec) (sids : List String) : List String :=
  unifyColumns (collectParsed (buildSubjectMap files) sids).canonicalOrder
    (collectParsed (buildSubjectMap files) sids).parsedById sids

theorem collect_warnings (pool : List (String × FileRec)) (sids : List String) :
    ∀ st₀ : CollectState,
      (sids.foldl (collectStep pool) st₀).warnings =
        st₀.warnings ++
          (sids.filter (fun s => (resolveFileForId pool s).isNone)).map
            (fun s => "Missing file for ID: " ++ s) := by
  induction sids with
  | nil => intro st₀; simp
  | cons sid rest ih =>
    intro st₀
    simp only [List.foldl_cons]
    rw [ih]
    cases hr : resolveFileForId pool sid with
    | none => simp [collectStep, hr, List.filter_cons]
    | some f => simp [collectStep, hr, List.filter_cons]

theorem collect_lookup (pool : List (String × FileRec)) (sids : List String) (k : String) :
    ∀ st₀ : CollectState,
      lookupKV (sids.foldl (collectStep pool) st₀).parsedById k =
        (match parseOf pool k with
         | some p => if k ∈ sids then some p else lookupKV st₀.parsedById k
         | none => lookupKV st₀.parsedById k) := by
  induction sids with
  | nil => intro st₀; cases parseOf pool k <;> simp
  | cons sid rest ih =>
    intro st₀
    simp only [List.foldl_cons]
    rw [ih]
    cases hr : resolveFileForId pool sid with
    | none =>
      have hpb : (collectStep pool st₀ sid).parsedById = st₀.parsedById := by
        simp [collectStep, hr]
      rw [hpb]
      cases hpk : parseOf pool k with
      | none => rfl
      | some p =>
        by_cases hk : k = sid
        · subst hk
          rw [parseOf, hr] at hpk
          cases hpk
        · simp [List.mem_cons, hk]
    | some f =>
      have hpb : (collectStep pool st₀ sid).parsedById
          = setKV st₀.parsedById sid (parseSubjectTxt f.content) := by
        simp [collectStep, hr]
      rw [hpb]
      by_cases hk : k = sid
      · subst hk
        have hpk : parseOf pool k = some (parseSubjectTxt f.content) := by
          rw [parseOf, hr]; rfl
        rw [hpk]
        by_cases hm : k ∈ rest
        · simp [hm, List.mem_cons]
        · simp [hm, List.mem_cons, lookupKV_setKV_self]
      · rw [lookupKV_setKV_ne _ _ _ _ hk]
        cases parseOf pool k <;> simp [List.mem_cons, hk]

theorem collect_canonical (pool : List (String × FileRec)) (sids : List String) :
    ∀ st₀ : CollectState,
      (sids.foldl (collectStep pool) st₀).canonicalOrder =
        (match st₀.canonicalOrder with
         | some c => some c
         | none =>
           ((parsedList pool sids).find? (fun p => !p.order.isEmpty)).map ParsedSubject.order) := by
  induction sids with
  | nil =>
    intro st₀
    simp only [List.foldl_nil]
    cases hc : st₀.canonicalOrder <;> simp [parsedList]
  | cons sid rest ih =>
    intro st₀
    simp only [List.foldl_cons]
    rw [ih]
    cases hr : resolveFileForId pool sid with
    | none =>
      have h1 : (collectStep pool st₀ sid).canonicalOrder = st₀.canonicalOrder := by
        simp [collectStep, hr]
      have h2 : parsedList pool (sid :: rest) = parsedList pool rest := by
        simp [parsedList, List.filterMap_cons, parseOf, hr]
      rw [h1, h2]
    | some f =>
      have h2 : parsedList pool (sid :: rest)
          = parseSubjectTxt f.content :: parsedList pool rest := by
        simp [parsedList, List.filterMap_cons, parseOf, hr]
      rw [h2]
      cases hc : st₀.canonicalOrder with
      | some c =>
        have h1 : (collectStep pool st₀ sid).canonicalOrder = some c := by
          simp [collectStep, hr, hc]
        rw [h1]
      | none =>
        by_cases hord : (parseSubjectTxt f.content).order = []
        · have h1 : (collectStep pool st₀ sid).canonicalOrder = none := by
            simp [collectStep, hr, hc, hord]
          rw [h1]
          simp [List.find?, hord]
        · have h1 : (collectStep pool st₀ sid).canonicalOrder
              = some (parseSubjectTxt f.content).order := by
            simp [collectStep, hr, hc, hord]
          rw [h1]
          have hb : ((parseSubjectTxt f.content).order.isEmpty : Bool) = false := by
            cases ho : (parseSubjectTxt f.content).order with
            | nil => exact absurd ho hord
            | cons a l => simp [List.isEmpty]
          simp [List.find?, hb]

theorem unifyColumns_some (c : List String) (pb : List (String × ParsedSubject)) (sids : List String) :
    unifyColumns (some c) pb sids = sids.foldl (unifyStep pb) c := rfl

theorem unify_foldl (pool : List (String × FileRec)) (pb : List (String × ParsedSubject))
    (sids : List String) (h : ∀ sid ∈ sids, lookupKV pb sid = parseOf pool sid) :
    ∀ init : List String,
      sids.foldl (unifyStep pb) init = (parsedList pool sids).foldl pstep init := by
  induction sids with
  | nil => intro init; rfl
  | cons sid rest ih =>
    intro init
    simp only [List.foldl_cons]
    have hsid := h sid (List.mem_cons_self sid rest)
    have hrest : ∀ s ∈ rest, lookupKV pb s = parseOf pool s :=
      fun s hs => h s (List.mem_cons_of_mem _ hs)
    cases hp : parseOf pool sid with
    | none =>
      have h1 : unifyStep pb init sid = init := by
        rw [unifyStep, hsid, hp]
      have h2 : parsedList pool (sid :: rest) = parsedList pool rest := by
        simp [parsedList, List.filterMap_cons, hp]
      rw [h1, h2, ih hrest]
    | some p =>
      have h1 : unifyStep pb init sid = pstep init p := by
        rw [unifyStep, hsid, hp]; rfl
      have h2 : parsedList pool (sid :: rest) = p :: parsedList pool rest := by
        simp [parsedList, List.filterMap_cons, hp]
      rw [h1, h2, List.foldl_cons, ih hrest]

theorem pstep_eq_addUnseen (acc : List String) (p : ParsedSubject) (hp : Inv p) :
    pstep acc p = addUnseen acc p.order := by
  rw [pstep]
  apply addUnseen_eq_self
  intro k hk
  rw [mem_addUnseen]
  exact Or.inr ((hp.2 k).mpr ((mem_keysOf_iff _ _).mp hk))

theorem foldl_pstep_eq (ps : List ParsedSubject) (hps : ∀ p ∈ ps, Inv p) :
    ∀ init : List String,
      ps.foldl pstep init = addUnseen init ((ps.map ParsedSubject.order).flatten) := by
  induction ps with
  | nil => intro init; rfl
  | cons p ps ih =>
    intro init
    simp only [List.foldl_cons, List.map_cons, List.flatten_cons]
    rw [pstep_eq_addUnseen init p (hps p (List.mem_cons_self p ps)),
      ih (fun q hq => hps q (List.mem_cons_of_mem _ hq)), addUnseen_append]

theorem Inv_of_mem_parsedList (pool : List (String × FileRec)) (sids : List String)
    (p : ParsedSubject) (hp : p ∈ parsedList pool sids) : Inv p := by
  rw [parsedList, List.mem_filterMap] at hp
  obtain ⟨sid, _, hpk⟩ := hp
  rw [parseOf, Option.map_eq_some'] at hpk
  obtain ⟨f, _, rfl⟩ := hpk
  exact Inv_parse f.content

theorem dedupFirst_eq_self_of_nodup (l : List String) (h : l.Nodup) : dedupFirst l = l := by
  induction l with
  | nil => simp [dedupFirst]
  | cons k ks ih =>
    rw [dedupFirst]
    rw [List.nodup_cons] at h
    have hf : ks.filter (fun x => x ≠ k) = ks := by
      apply List.filter_eq_self.mpr
      intro a ha
      have hne : a ≠ k := fun hh => h.1 (hh ▸ ha)
      simpa using hne
    rw [hf, ih h.2]

theorem find?_decomp {α : Type} (p : α → Bool) (l : List α) (x : α) (h : l.find? p = some x) :
    ∃ l₁ l₂, l = l₁ ++ x :: l₂ ∧ ∀ y ∈ l₁, p y = false := by
  induction l with
  | nil => cases h
  | cons a l ih =>
    cases hpa : p a with
    | true =>
      rw [List.find?_cons_of_pos _ hpa] at h
      obtain rfl : a = x := by injection h
      exact ⟨[], l, rfl, by intro y hy; cases hy⟩
    | false =>
      rw [List.find?_cons_of_neg _ (by simp [hpa])] at h
      obtain ⟨l₁, l₂, rfl, hall⟩ := ih h
      refine ⟨a :: l₁, l₂, rfl, ?_⟩
      intro y hy
      rcases List.mem_cons.mp hy with rfl | hy'
      · exact hpa
      · exact hall y hy'

/-- C1: in a build where at least one roster subject (in roster order)
parses to a record with a nonempty discovery-order sequence, the canonical
metric column list is duplicate-free, equals the first-occurrence
deduplication of the concatenation of all parsed records' discovery orders
in roster order (so the keys after the seeded prefix appear in
first-discovery order), has the first nonempty discovery order as its
prefix, and contains exactly the union of the keys of all parsed value
mappings. -/
theorem C1_canonical_columns (files : List FileRec) (sids : List String)
    (h : ∃ p ∈ parsedList (buildSubjectMap files) sids, p.order ≠ []) :
    (metricColsFor files sids).Nodup
    ∧ metricColsFor files sids
        = dedupFirst ((parsedList (buildSubjectMap files) sids).map ParsedSubject.order).flatten
    ∧ (∀ p₀, (parsedList (buildSubjectMap files) sids).find? (fun p => !p.order.isEmpty) = some p₀ →
        (metricColsFor files sids).take p₀.order.length = p₀.order)
    ∧ (∀ k, k ∈ metricColsFor files sids ↔
        ∃ p ∈ parsedList (buildSubjectMap files) sids, (lookupKV p.metrics k).isSome) := by
  obtain ⟨p, hpmem, hpne⟩ := h
  set pool := buildSubjectMap files with hpool
  set ps := parsedList pool sids with hpsdef
  have hfind : ∃ p₀, ps.find? (fun q => !q.order.isEmpty) = some p₀ := by
    cases hf : ps.find? (fun q => !q.order.isEmpty) with
    | some p₀ => exact ⟨p₀, rfl⟩
    | none =>
      exfalso
      have h1 := List.find?_eq_none.mp hf p hpmem
      apply hpne
      cases horder : p.order with
      | nil => rfl
      | cons a t => exact absurd (by simp [horder]) h1
  obtain ⟨p₀, hp₀⟩ := hfind
  have hp₀mem : p₀ ∈ ps := List.mem_of_find?_eq_some hp₀
  have hp₀nodup : p₀.order.Nodup := (Inv_of_mem_parsedList pool sids p₀ hp₀mem).1
  have hcanon : (collectParsed pool sids).canonicalOrder = some p₀.order := by
    rw [collectParsed, collect_canonical pool sids ⟨[], [], none⟩]
    simp only []
    rw [← hpsdef, hp₀]
    rfl
  have hlk : ∀ sid ∈ sids, lookupKV (collectParsed pool sids).parsedById sid = parseOf pool sid := by
    intro sid hsid
    rw [collectParsed, collect_lookup pool sids sid ⟨[], [], none⟩]
    cases hpk : parseOf pool sid with
    | none => simp [lookupKV]
    | some q => simp [hsid]
  have hcols : metricColsFor files sids = ps.foldl pstep p₀.order := by
    rw [metricColsFor, ← hpool, hcanon, unifyColumns_some]
    exact unify_foldl pool _ sids hlk p₀.order
  have hInvAll : ∀ q ∈ ps, Inv q := fun q hq => Inv_of_mem_parsedList pool sids q hq
  have hfold : ps.foldl pstep p₀.order = addUnseen p₀.order ((ps.map ParsedSubject.order).flatten) :=
    foldl_pstep_eq ps hInvAll p₀.order
  obtain ⟨l₁, l₂, hsplit, hall⟩ := find?_decomp _ ps p₀ hp₀
  have hflat : ((ps.map ParsedSubject.order).flatten)
      = p₀.order ++ ((l₂.map ParsedSubject.order).flatten) := by
    rw [hsplit]
    simp only [List.map_append, List.map_cons, List.flatten_append, List.flatten_cons]
    have h0 : (l₁.map ParsedSubject.order).flatten = [] := by
      rw [List.flatten_eq_nil_iff]
      intro o ho
      rw [List.mem_map] at ho
      obtain ⟨q, hq, rfl⟩ := ho
      have h2 := hall q hq
      simpa using h2
    rw [h0, List.nil_append]
  have hcols2 : metricColsFor files sids
      = addUnseen p₀.order ((l₂.map ParsedSubject.order).flatten) := by
    rw [hcols, hfold, hflat, addUnseen_append,
      addUnseen_eq_self p₀.order p₀.order (fun k hk => hk)]
  have hdedup : metricColsFor files sids = dedupFirst ((ps.map ParsedSubject.order).flatten) := by
    rw [hcols2, ← addUnseen_nil_left, hflat, addUnseen_append]
    congr 1
    rw [addUnseen_nil_left, dedupFirst_eq_self_of_nodup _ hp₀nodup]
  refine ⟨?_, hdedup, ?_, ?_⟩
  · rw [hcols2]
    exact addUnseen_nodup _ _ hp₀nodup
  · intro p₀' hp₀'
    rw [hp₀] at hp₀'
    injection hp₀' with he
    subst he
    obtain ⟨r, hr⟩ := addUnseen_eq_append p₀.order ((l₂.map ParsedSubject.order).flatten)
    rw [hcols2, hr]
    exact List.take_left p₀.order r
  · intro k
    rw [hdedup, mem_dedupFirst, List.mem_flatten]
    constructor
    · rintro ⟨o, ho, hk⟩
      rw [List.mem_map] at ho
      obtain ⟨q, hq, rfl⟩ := ho
      exact ⟨q, hq, ((Inv_of_mem_parsedList pool sids q hq).2 k).mp hk⟩
    · rintro ⟨q, hq, hk⟩
      exact ⟨q.order, List.mem_map_of_mem _ hq, ((Inv_of_mem_parsedList pool sids q hq).2 k).mpr hk⟩

/- ---------- line-level lemmas for the colon and delimiter rules ---------- -/

theorem trimChars_length_le (cs : Chars) :
    (trimChars cs).length ≤ (cs.dropWhile isWsChar).length := by
  rw [trimChars, List.length_reverse]
  calc ((cs.dropWhile isWsChar).reverse.dropWhile isWsChar).length
      ≤ (cs.dropWhile isWsChar).reverse.length := length_dropWhile_le_self ..
    _ = (cs.dropWhile isWsChar).length := List.length_reverse ..

theorem head_not_ws_of_trimmed (c₀ : Char) (rest : Chars)
    (h : trimChars (c₀ :: rest) = c₀ :: rest) : isWsChar c₀ = false := by
  cases hws : isWsChar c₀ with
  | false => rfl
  | true =>
    exfalso
    have h1 : ((c₀ :: rest).dropWhile isWsChar) = rest.dropWhile isWsChar := by
      rw [List.dropWhile_cons, if_pos hws]
    have h2 : (trimChars (c₀ :: rest)).length ≤ rest.length := by
      calc (trimChars (c₀ :: rest)).length
          ≤ ((c₀ :: rest).dropWhile isWsChar).length := trimChars_length_le _
        _ = (rest.dropWhile isWsChar).length := by rw [h1]
        _ ≤ rest.length := length_dropWhile_le_self ..
    rw [h] at h2
    simp at h2

theorem trimChars_cons_ne_nil (c₀ : Char) (l : Chars) (h : isWsChar c₀ = false) :
    trimChars (c₀ :: l) ≠ [] := by
  intro hcontra
  rw [trimChars, List.reverse_eq_nil_iff] at hcontra
  have h2 := (List.dropWhile_eq_nil_iff).mp hcontra
  have h3 : (c₀ :: l).dropWhile isWsChar = c₀ :: l := by
    rw [List.dropWhile_cons, if_neg (by simp [h])]
  rw [h3] at h2
  have h4 := h2 c₀ (by simp)
  rw [h] at h4
  cases h4

/- ---------- claim theorems for the parser-level claims ---------- -/

/-- C2: for every subject text, the discovery order lists each recorded key
exactly once, in the order keys first contribute, and the mapping holds the
coerced value of the last contributing occurrence of each key (repeated keys
overwrite). -/
theorem C2_parse_order_and_last_wins (text : String) :
    (parseSubjectTxt text).order = dedupFirst ((contribsOf text).map Prod.fst)
    ∧ (parseSubjectTxt text).order.Nodup
    ∧ (∀ k, k ∈ (parseSubjectTxt text).order ↔ (lookupKV (parseSubjectTxt text).metrics k).isSome)
    ∧ (∀ k, lookupKV (parseSubjectTxt text).metrics k = lastValue k (contribsOf text)) :=
  ⟨parse_order text, (Inv_parse text).1, (Inv_parse text).2, parse_metrics text⟩

/-- C3 as frozen fails on the source: the two-character line comma-a reaches
the delimiter branch (no colon, not the header), the comma split yields two
fields, the claim then makes the space-join of the preceding fields (the
empty string) the key with value a, but the source contributes no key and no
value because of the nonempty-key guard on App.tsx line 66. -/
theorem C3_counterexample :
    isMeasureHeader ",a".data = false
    ∧ ",a".data.findIdx? (fun c => c = ':') = none
    ∧ splitByAny ",a".data = [[], ['a']]
    ∧ List.intercalate [' '] (splitByAny ",a".data).dropLast = []
    ∧ lineKV ",a".data = none
    ∧ parseSubjectTxt ",a" = ⟨[], []⟩ := by
  decide

/-- C3 amended: a delimiter-branch line is split by the first delimiter
yielding more than one field, tried as tab, then comma, then whitespace
runs; with at least two fields the last field (coerced) is the value and the
space-join of the preceding fields the key, except that a line whose
preceding fields join to the empty key contributes nothing; with fewer than
two fields the line contributes nothing. -/
theorem C3_delimiter_branch (cs : Chars)
    (hh : isMeasureHeader cs = false)
    (hc : ∀ i, cs.findIdx? (fun c => c = ':') = some i → i = 0) :
    ((splitChar '\t' cs).length > 1 → splitByAny cs = splitChar '\t' cs)
    ∧ ((splitChar '\t' cs).length ≤ 1 → (splitChar ',' cs).length > 1 →
        splitByAny cs = splitChar ',' cs)
    ∧ ((splitChar '\t' cs).length ≤ 1 → (splitChar ',' cs).length ≤ 1 →
        splitByAny cs = wsSplitGo (trimChars cs))
    ∧ (∀ val pre, splitByAny cs = pre ++ [val] → pre ≠ [] →
        lineKV cs =
          (if List.intercalate [' '] pre ≠ [] then
            some (String.mk (List.intercalate [' '] pre), coerceNumber (String.mk val))
          else none))
    ∧ ((splitByAny cs).length < 2 → lineKV cs = none) := by
  have hdelim : lineKV cs = delimKV cs := by
    rw [lineKV, hh]
    simp only [Bool.false_eq_true, if_false]
    cases hf : cs.findIdx? (fun c => c = ':') with
    | none => rfl
    | some i =>
      rw [hc i hf]
      rfl
  refine ⟨?_, ?_, ?_, ?_, ?_⟩
  · intro h1
    rw [splitByAny, if_pos h1]
  · intro h1 h2
    rw [splitByAny, if_neg (by omega), if_pos h2]
  · intro h1 h2
    rw [splitByAny, if_neg (by omega), if_neg (by omega)]
  · intro val pre hparts hpre
    rw [hdelim]
    simp only [delimKV]
    have hlen : (splitByAny cs).length ≥ 2 := by
      rw [hparts]
      rcases pre with _ | ⟨a, t⟩
      · exact absurd rfl hpre
      · simp
    rw [if_pos hlen, hparts, List.getLast?_concat, List.dropLast_concat]
  · intro hlen
    rw [hdelim]
    simp only [delimKV]
    rw [if_neg (by omega)]

/-- C4 as frozen fails on the source: the line colon-a-comma-b contains its
first colon at index zero; splitting there as the claim prescribes would
give the empty key and the value a-comma-b, but the source applies the colon
rule only for a strictly positive index, so the delimiter branch records the
key colon-a with value b. -/
theorem C4_counterexample :
    ":a,b".data.findIdx? (fun c => c = ':') = some 0
    ∧ lineKV ":a,b".data = some (":a", Value.str "b")
    ∧ lineKV ":a,b".data ≠ some ("", coerceNumber "a,b")
    ∧ lineKV ":a,b".data ≠ none
    ∧ parseSubjectTxt ":a,b" = ⟨[(":a", Value.str "b")], [":a"]⟩ := by
  decide

/-- C4 amended: for every trimmed, nonempty, non-header line whose first
colon sits at a strictly positive index, the line is split at that colon,
the trimmed left side is the key and the trimmed, coerced right side the
value; a line starting with a colon falls through to the delimiter branch
instead. -/
theorem C4_colon_rule (cs : Chars) (i : Nat)
    (hh : isMeasureHeader cs = false)
    (hf : cs.findIdx? (fun c => c = ':') = some i)
    (hi : 0 < i)
    (ht : trimChars cs = cs) (hne : cs ≠ []) :
    lineKV cs = some (String.mk (trimChars (cs.take i)),
      coerceNumber (String.mk (trimChars (cs.drop (i + 1))))) := by
  rcases hcs : cs with _ | ⟨c₀, rest⟩
  · exact absurd hcs hne
  subst hcs
  have hws : isWsChar c₀ = false := head_not_ws_of_trimmed c₀ rest ht
  have htake : (c₀ :: rest).take i = c₀ :: rest.take (i - 1) := by
    rcases i with _ | n
    · exact absurd hi (by omega)
    · simp [List.take_succ_cons]
  have hkne : trimChars ((c₀ :: rest).take i) ≠ [] := by
    rw [htake]
    exact trimChars_cons_ne_nil c₀ _ hws
  rw [lineKV, hh]
  simp only [Bool.false_eq_true, if_false]
  rw [hf]
  simp only [hi, if_pos]
  rw [if_pos hkne]

/-- C6: coerceNumber first trims; an empty trim result stays the empty
string, a full finite numeric conversion stores the number, anything else
stores the trimmed string unchanged. -/
theorem C6_coerce (v : String) :
    (jsTrim v = "" → coerceNumber v = Value.str "")
    ∧ (∀ q, jsNumber (jsTrim v) = some q → coerceNumber v = Value.num q)
    ∧ (jsTrim v ≠ "" → jsNumber (jsTrim v) = none → coerceNumber v = Value.str (jsTrim v)) := by
  refine ⟨?_, ?_, ?_⟩
  · intro h
    simp [coerceNumber, h]
  · intro q hq
    by_cases h : jsTrim v = ""
    · rw [h] at hq
      have hnone : jsNumber "" = none := by decide
      rw [hnone] at hq
      cases hq
    · simp [coerceNumber, h, hq]
  · intro h hn
    simp [coerceNumber, h, hn]

/-- C7: resolveFileForId tries exactly the trimmed id, the stripped base and
the base with the txt extension, in that order, by exact case-sensitive
lookup; the first hit wins and the result is none exactly when all three
lookups miss. -/
theorem C7_resolve (pool : List (String × FileRec)) (idRaw : String) :
    resolveFileForId pool idRaw =
      (match lookupKV pool (jsTrim idRaw) with
       | some f => some f
       | none =>
         match lookupKV pool (stripExt (jsTrim idRaw)) with
         | some f => some f
         | none => lookupKV pool (stripExt (jsTrim idRaw) ++ ".txt"))
    ∧ (resolveFileForId pool idRaw = none ↔
        lookupKV pool (jsTrim idRaw) = none
        ∧ lookupKV pool (stripExt (jsTrim idRaw)) = none
        ∧ lookupKV pool (stripExt (jsTrim idRaw) ++ ".txt") = none) := by
  have hmain : resolveFileForId pool idRaw =
      (match lookupKV pool (jsTrim idRaw) with
       | some f => some f
       | none =>
         match lookupKV pool (stripExt (jsTrim idRaw)) with
         | some f => some f
         | none => lookupKV pool (stripExt (jsTrim idRaw) ++ ".txt")) := by
    rw [resolveFileForId]
    simp only [List.findSome?_cons]
    cases lookupKV pool (jsTrim idRaw) with
    | some f => rfl
    | none =>
      cases lookupKV pool (stripExt (jsTrim idRaw)) with
      | some f => rfl
      | none =>
        simp [List.findSome?_cons]
        cases lookupKV pool (stripExt (jsTrim idRaw) ++ ".txt") <;> rfl
  refine ⟨hmain, ?_⟩
  rw [hmain]
  cases h1 : lookupKV pool (jsTrim idRaw) <;>
    cases h2 : lookupKV pool (stripExt (jsTrim idRaw)) <;>
      cases h3 : lookupKV pool (stripExt (jsTrim idRaw) ++ ".txt") <;> simp

/- ---------- buildMatrix path lemmas ---------- -/

theorem isEmpty_false_of_ne_nil {α : Type} (l : List α) (h : l ≠ []) : l.isEmpty = false := by
  cases l with
  | nil => exact absurd rfl h
  | cons a t => rfl

theorem mem_subjectsOrder_ne_empty (pp : ParsedTable) (idCol : String) (sid : String)
    (h : sid ∈ subjectsOrderOf pp idCol) : sid ≠ "" := by
  have := List.of_mem_filter h
  simpa using this

theorem buildMatrix_none (inp : BuildInput) (h : inp.participants = none) :
    buildMatrix inp = ⟨[], [], []⟩ := by
  simp [buildMatrix, h]

theorem buildMatrix_noid (inp : BuildInput) (pp : ParsedTable)
    (h1 : inp.participants = some pp) (h2 : inp.idColumn = "") :
    buildMatrix inp = ⟨[], [], []⟩ := by
  simp [buildMatrix, h1, h2]

theorem buildMatrix_nosubjects (inp : BuildInput) (pp : ParsedTable)
    (h1 : inp.participants = some pp) (h2 : inp.idColumn ≠ "")
    (h3 : subjectsOrderOf pp inp.idColumn = []) :
    buildMatrix inp = ⟨[], [], []⟩ := by
  simp [buildMatrix, h1, h2, h3]

theorem buildMatrix_main (inp : BuildInput) (pp : ParsedTable)
    (h1 : inp.participants = some pp) (h2 : inp.idColumn ≠ "")
    (h3 : subjectsOrderOf pp inp.idColumn ≠ []) :
    buildMatrix inp =
      ⟨"subject" :: metricColsFor inp.files (subjectsOrderOf pp inp.idColumn)
          ++ (if inp.mergeCovariates then pp.fields.filter (fun c => c ≠ inp.idColumn) else []),
        (subjectsOrderOf pp inp.idColumn).map
          (rowFor inp pp
            (collectParsed (buildSubjectMap inp.files) (subjectsOrderOf pp inp.idColumn)).parsedById
            (metricColsFor inp.files (subjectsOrderOf pp inp.idColumn))
            (pp.fields.filter (fun c => c ≠ inp.idColumn))),
        (collectParsed (buildSubjectMap inp.files) (subjectsOrderOf pp inp.idColumn)).warnings⟩ := by
  have hie : (subjectsOrderOf pp inp.idColumn).isEmpty = false := isEmpty_false_of_ne_nil _ h3
  simp only [buildMatrix, h1, if_neg h2, hie, Bool.false_eq_true, if_false]
  rfl

/-- C5 is what the source should do but does not do: a build with an
uploaded file whose base name matches no roster id completes and ignores the
file, but produces an empty warning list — no unmatched-file warning exists
anywhere in buildMatrix, although the project README promises one. -/
theorem C5_no_unmatched_warning :
    buildMatrix
      { participants := some ⟨["participant_id"], [[("participant_id", "sub-001")]]⟩,
        idColumn := "participant_id",
        rowLabelTemplate := "{id}",
        mergeCovariates := false,
        files := [⟨"sub-001.txt", "A: 1"⟩, ⟨"stray.txt", "B: 2"⟩] }
      = ⟨["subject", "A"], [["sub-001", "1"]], []⟩ := by
  decide

/-- C8: a roster subject whose id resolves to no file yields a warning
naming it, and the build still emits one row per roster subject, the row of
the missing one holding the formatted label, an empty string in every
metric cell, and the covariate cells. -/
theorem C8_missing_file (inp : BuildInput) (pp : ParsedTable) (sid : String) (i : Nat)
    (h1 : inp.participants = some pp) (h2 : inp.idColumn ≠ "")
    (hsid : (subjectsOrderOf pp inp.idColumn)[i]? = some sid)
    (hmiss : resolveFileForId (buildSubjectMap inp.files) sid = none) :
    ("Missing file for ID: " ++ sid) ∈ (buildMatrix inp).warnings
    ∧ (buildMatrix inp).rows.length = (subjectsOrderOf pp inp.idColumn).length
    ∧ (buildMatrix inp).rows[i]? = some
        (formatRowLabel inp.rowLabelTemplate sid
          :: List.replicate (metricColsFor inp.files (subjectsOrderOf pp inp.idColumn)).length ""
          ++ covCellsFor inp pp (pp.fields.filter (fun c => c ≠ inp.idColumn)) sid) := by
  have hmem : sid ∈ subjectsOrderOf pp inp.idColumn := List.getElem?_mem hsid
  have h3 : subjectsOrderOf pp inp.idColumn ≠ [] := by
    intro h0
    rw [h0] at hmem
    cases hmem
  rw [buildMatrix_main inp pp h1 h2 h3]
  have hlookup : lookupKV (collectParsed (buildSubjectMap inp.files)
      (subjectsOrderOf pp inp.idColumn)).parsedById sid = none := by
    rw [collectParsed, collect_lookup]
    have hpo : parseOf (buildSubjectMap inp.files) sid = none := by
      rw [parseOf, hmiss]
      rfl
    rw [hpo]
    rfl
  refine ⟨?_, ?_, ?_⟩
  · rw [collectParsed, collect_warnings]
    simp only [List.nil_append]
    apply List.mem_map.mpr
    refine ⟨sid, List.mem_filter.mpr ⟨hmem, ?_⟩, rfl⟩
    simp [hmiss]
  · exact List.length_map ..
  · rw [List.getElem?_map, hsid]
    simp only [Option.map_some']
    congr 1
    simp only [rowFor, hlookup]
    congr 1
    have hmap : (metricColsFor inp.files (subjectsOrderOf pp inp.idColumn)).map
          (fun k => valueToString ((lookupKV ([] : List (String × Value)) k).getD (Value.str "")))
        = List.replicate (metricColsFor inp.files (subjectsOrderOf pp inp.idColumn)).length "" := by
      apply List.eq_replicate_iff.mpr
      refine ⟨by simp, ?_⟩
      intro b hb
      rw [List.mem_map] at hb
      obtain ⟨k, _, rfl⟩ := hb
      rfl
    rw [hmap]

theorem find?_drop_blank (idCol : String) (row : List (String × String))
    (pre post : List (List (String × String))) (sid : String)
    (hblank : normalize (lookupKV row idCol) = "") (hsid : sid ≠ "") :
    (pre ++ row :: post).find? (fun r => normalize (lookupKV r idCol) = sid)
    = (pre ++ post).find? (fun r => normalize (lookupKV r idCol) = sid) := by
  induction pre with
  | nil =>
    simp only [List.nil_append]
    rw [List.find?_cons_of_neg]
    simp only [hblank, decide_eq_true_eq]
    exact fun h => hsid h.symm
  | cons a pre ih =>
    simp only [List.cons_append]
    by_cases hpa : normalize (lookupKV a idCol) = sid
    · rw [List.find?_cons_of_pos _ (by simpa using hpa),
        List.find?_cons_of_pos _ (by simpa using hpa)]
    · rw [List.find?_cons_of_neg _ (by simpa using hpa),
        List.find?_cons_of_neg _ (by simpa using hpa)]
      exact ih

/-- C9: a roster row whose identifier cell normalizes to the empty string is
silently dropped: the build result is identical to the build on the roster
with that row removed — no output row, no file resolution, no warning. -/
theorem C9_blank_id_row (inp : BuildInput) (fields : List String)
    (pre post : List (List (String × String))) (row : List (String × String))
    (h1 : inp.participants = some ⟨fields, pre ++ row :: post⟩)
    (hblank : normalize (lookupKV row inp.idColumn) = "") :
    buildMatrix inp = buildMatrix { inp with participants := some ⟨fields, pre ++ post⟩ } := by
  by_cases h2 : inp.idColumn = ""
  · rw [buildMatrix_noid inp _ h1 h2,
      buildMatrix_noid { inp with participants := some ⟨fields, pre ++ post⟩ } ⟨fields, pre ++ post⟩ rfl h2]
  · have hso : subjectsOrderOf ⟨fields, pre ++ row :: post⟩ inp.idColumn
        = subjectsOrderOf ⟨fields, pre ++ post⟩ inp.idColumn := by
      rw [subjectsOrderOf, subjectsOrderOf]
      simp only [List.map_append, List.map_cons, List.filter_append, List.filter_cons]
      rw [hblank]
      simp
    by_cases h3 : subjectsOrderOf ⟨fields, pre ++ row :: post⟩ inp.idColumn = []
    · rw [buildMatrix_nosubjects inp _ h1 h2 h3,
        buildMatrix_nosubjects { inp with participants := some ⟨fields, pre ++ post⟩ }
          ⟨fields, pre ++ post⟩ rfl h2 (by rw [← hso]; exact h3)]
    · rw [buildMatrix_main inp _ h1 h2 h3,
        buildMatrix_main { inp with participants := some ⟨fields, pre ++ post⟩ }
          ⟨fields, pre ++ post⟩ rfl h2 (by rw [← hso]; exact h3)]
      simp only [hso]
      congr 1
      apply List.map_congr_left
      intro sid hsidmem
      have hsid : sid ≠ "" := mem_subjectsOrder_ne_empty _ _ sid hsidmem
      simp only [rowFor, covCellsFor]
      rw [find?_drop_blank inp.idColumn row pre post sid hblank hsid]

/-- C10: every row of every build result has exactly the header length: one
label cell, one cell per metric column, and, with covariates enabled, one
cell per covariate column; all cells are strings by construction. -/
theorem C10_row_lengths (inp : BuildInput) (r : List String)
    (hr : r ∈ (buildMatrix inp).rows) :
    r.length = (buildMatrix inp).header.length := by
  cases hp : inp.participants with
  | none =>
    rw [buildMatrix_none inp hp] at hr
    cases hr
  | some pp =>
    by_cases h2 : inp.idColumn = ""
    · rw [buildMatrix_noid inp pp hp h2] at hr
      cases hr
    · by_cases h3 : subjectsOrderOf pp inp.idColumn = []
      · rw [buildMatrix_nosubjects inp pp hp h2 h3] at hr
        cases hr
      · rw [buildMatrix_main inp pp hp h2 h3] at hr ⊢
        simp only [List.mem_map] at hr
        obtain ⟨sid, hsid, rfl⟩ := hr
        simp only [rowFor, covCellsFor]
        cases hmc : inp.mergeCovariates <;> simp

/- ---------- concrete witnesses ---------- -/

def filesC1 : List FileRec := [⟨"s1.txt", "A: 1"⟩, ⟨"s2.txt", "B: 2"⟩]

def sidsC1 : List String := ["s1", "s2"]

/-- Witness for C1 at a concrete two-subject build. -/
theorem C1_canonical_columns_witness :
    (metricColsFor filesC1 sidsC1).Nodup
    ∧ metricColsFor filesC1 sidsC1
        = dedupFirst ((parsedList (buildSubjectMap filesC1) sidsC1).map ParsedSubject.order).flatten
    ∧ (∀ p₀, (parsedList (buildSubjectMap filesC1) sidsC1).find? (fun p => !p.order.isEmpty) = some p₀ →
        (metricColsFor filesC1 sidsC1).take p₀.order.length = p₀.order)
    ∧ (∀ k, k ∈ metricColsFor filesC1 sidsC1 ↔
        ∃ p ∈ parsedList (buildSubjectMap filesC1) sidsC1, (lookupKV p.metrics k).isSome) :=
  C1_canonical_columns filesC1 sidsC1 ⟨parseSubjectTxt "A: 1", by decide, by decide⟩

/-- Witness for the amended C3 at the concrete line a-space-b. -/
theorem C3_delimiter_branch_witness :
    ((splitChar '\t' "a b".data).length > 1 → splitByAny "a b".data = splitChar '\t' "a b".data)
    ∧ ((splitChar '\t' "a b".data).length ≤ 1 → (splitChar ',' "a b".data).length > 1 →
        splitByAny "a b".data = splitChar ',' "a b".data)
    ∧ ((splitChar '\t' "a b".data).length ≤ 1 → (splitChar ',' "a b".data).length ≤ 1 →
        splitByAny "a b".data = wsSplitGo (trimChars "a b".data))
    ∧ (∀ val pre, splitByAny "a b".data = pre ++ [val] → pre ≠ [] →
        lineKV "a b".data =
          (if List.intercalate [' '] pre ≠ [] then
            some (String.mk (List.intercalate [' '] pre), coerceNumber (String.mk val))
          else none))
    ∧ ((splitByAny "a b".data).length < 2 → lineKV "a b".data = none) :=
  C3_delimiter_branch "a b".data (by decide)
    (fun i h => by
      have hn : ("a b".data.findIdx? (fun c => c = ':')) = none := by decide
      rw [hn] at h
      cases h)

/-- Witness for the amended C4 at the concrete line a-colon-one. -/
theorem C4_colon_rule_witness :
    lineKV "a:1".data = some (String.mk (trimChars ("a:1".data.take 1)),
      coerceNumber (String.mk (trimChars ("a:1".data.drop 2)))) :=
  C4_colon_rule "a:1".data 1 (by decide) (by decide) (by decide) (by decide) (by decide)

/-- Witness for C6 on a numeric, a blank and a textual input. -/
theorem C6_coerce_witness :
    coerceNumber "  42 " = Value.num 42
    ∧ coerceNumber " " = Value.str ""
    ∧ coerceNumber " a1 " = Value.str "a1" :=
  ⟨(C6_coerce "  42 ").2.1 42 (by decide),
   (C6_coerce " ").1 (by decide),
   (C6_coerce " a1 ").2.2 (by decide) (by decide)⟩

def inpC8 : BuildInput :=
  { participants := some ⟨["participant_id"], [[("participant_id", "sub-002")]]⟩,
    idColumn := "participant_id",
    rowLabelTemplate := "{id}",
    mergeCovariates := false,
    files := [] }

def ppC8 : ParsedTable := ⟨["participant_id"], [[("participant_id", "sub-002")]]⟩

/-- Witness for C8 at a build whose only subject has no file. -/
theorem C8_missing_file_witness :
    ("Missing file for ID: " ++ "sub-002") ∈ (buildMatrix inpC8).warnings
    ∧ (buildMatrix inpC8).rows.length = (subjectsOrderOf ppC8 inpC8.idColumn).length
    ∧ (buildMatrix inpC8).rows[0]? = some
        (formatRowLabel inpC8.rowLabelTemplate "sub-002"
          :: List.replicate (metricColsFor inpC8.files (subjectsOrderOf ppC8 inpC8.idColumn)).length ""
          ++ covCellsFor inpC8 ppC8 (ppC8.fields.filter (fun c => c ≠ inpC8.idColumn)) "sub-002") :=
  C8_missing_file inpC8 ppC8 "sub-002" 0 rfl (by decide) (by decide) (by decide)

def inpC9 : BuildInput :=
  { participants := some ⟨["id"], [[("id", "  ")], [("id", "s1")]]⟩,
    idColumn := "id",
    rowLabelTemplate := "{id}",
    mergeCovariates := false,
    files := [⟨"s1.txt", "A: 1"⟩] }

/-- Witness for C9: dropping a blank-id roster row leaves the build
unchanged. -/
theorem C9_blank_id_row_witness :
    buildMatrix inpC9
      = buildMatrix { inpC9 with participants := some ⟨["id"], [] ++ [[("id", "s1")]]⟩ } :=
  C9_blank_id_row inpC9 ["id"] [] [[("id", "s1")]] [("id", "  ")] rfl (by decide)

def inpC10 : BuildInput :=
  { participants := some ⟨["participant_id"], [[("participant_id", "sub-001")]]⟩,
    idColumn := "participant_id",
    rowLabelTemplate := "{id}",
    mergeCovariates := false,
    files := [⟨"sub-001.txt", "A: 1"⟩] }

/-- Witness for C10 at a concrete one-subject build. -/
theorem C10_row_lengths_witness :
    (["sub-001", "1"] : List String).length = (buildMatrix inpC10).header.length :=
  C10_row_lengths inpC10 ["sub-001", "1"] (by decide)

end Aseg
